import Mathlib

/-!
# Verification of the micrograd scalar autodiff engine (`src/engine.c`)

Shallow embedding of the final (complete) revision of `engine.c`: the
`Value` struct becomes `Node`, the heap of `malloc`ed nodes becomes an
append-only list `Store` addressed by natural-number ids (pointer
identity = id equality; `malloc` always returns a fresh pointer, modelled
by appending at index `s.length`).

The C `float`/`double` scalars are modelled by an abstract linearly
ordered commutative ring `R`: the engine itself uses only `+`, `*`,
negation, numeric literals and `<` on scalars, so every theorem below
holds for `R = ℝ` (the exact-arithmetic idealisation of IEEE floats);
concrete scenarios, whose values are all small integers on which C float
arithmetic is exact, are evaluated at `R = ℤ`.  The transcendental
library calls `powf`/`pow` and `log` are kept abstract as explicit
function parameters `pw : R → R → R` and `lg : R → R`, so theorems
quantify over every possible realisation of them.

The `reverse` function pointer stored in each node is modelled by the
`Op` tag: every constructor in the C source installs exactly the reverse
function corresponding to its operator (or `NULL` for `defaultValue`),
so the tag carries the same information.  The struct field `n_children`
always equals the length of the `children` array at every site that
writes either, so the `children` list models both fields at once.
-/

namespace Micrograd

/-- Operator tag: models the `reverse` function-pointer field of `Value`
(`Op.leaf` is a `NULL` pointer, the others are the corresponding
`*_reverse` functions installed by the constructors). -/
inductive Op where
  | leaf
  | addOp
  | mulOp
  | pwrOp
  | reluOp
  deriving DecidableEq, Repr

/-- The `Value` struct of `engine.c` (`data`, `grad`, `children`;
`n_children` is `children.length`; the function pointer is `op`). -/
structure Node (R : Type) where
  data : R
  grad : R
  children : List Nat
  op : Op
  deriving DecidableEq, Repr

variable {R : Type} [LinearOrderedCommRing R]

/-- Default node used when dereferencing an id that is not in the store
(a situation that never arises in the verified programs). -/
def dNode : Node R := ⟨0, 0, [], Op.leaf⟩

instance : Inhabited (Node R) := ⟨dNode⟩

/-- The heap: all nodes ever `malloc`ed, in allocation order. -/
abbrev Store (R : Type) := List (Node R)

/-- Dereference a node pointer. -/
def getN (s : Store R) (i : Nat) : Node R := s.getD i dNode

/-- Write the `grad` field of node `i` (models `p->grad = e`). -/
def updGrad (s : Store R) (i : Nat) (g : R) : Store R :=
  s.set i { getN s i with grad := g }

/-- `#define MIN_RANGE -10.0` -/
def MIN_RANGE : R := -10

/-- `#define MAX_RANGE 10` -/
def MAX_RANGE : R := 10

/-- `#define MAX_DAG_SIZE 1000` (capacity of the `dag`/`visited` stack
arrays in `reverse`; the verified programs stay far below it). -/
def MAX_DAG_SIZE : Nat := 1000

/-- `void grad_clip(Value *obj)` from `engine.c`. -/
def grad_clip (s : Store R) (i : Nat) : Store R :=
  if (getN s i).grad < MIN_RANGE then
    updGrad s i MIN_RANGE
  else if (getN s i).grad > MAX_RANGE then
    updGrad s i MAX_RANGE
  else
    s

/-- The clamping function `grad_clip` applies to the stored gradient. -/
def clipVal (g : R) : R :=
  if g < MIN_RANGE then MIN_RANGE else if g > MAX_RANGE then MAX_RANGE else g

/-- `Value *defaultValue(float x)`: fresh node, `grad = 0`, no children,
`reverse = NULL`.  Returns the extended heap and the fresh pointer. -/
def defaultValue (s : Store R) (x : R) : Store R × Nat :=
  (s ++ [{ data := x, grad := 0, children := [], op := Op.leaf }], s.length)

/-- `Value *add(Value *a, Value *b)`: data `a->data + b->data`,
children `[a, b]`, reverse pointer `add_reverse`. -/
def add (s : Store R) (a b : Nat) : Store R × Nat :=
  (s ++ [{ data := (getN s a).data + (getN s b).data, grad := 0,
           children := [a, b], op := Op.addOp }], s.length)

/-- `Value *sub(Value *a, Value *b)`: allocates a fresh leaf `negB`
holding `-b->data` and returns `add(a, negB)`. -/
def sub (s : Store R) (a b : Nat) : Store R × Nat :=
  let p := defaultValue s (-(getN s b).data)
  add p.1 a p.2

/-- `Value *mul(Value *a, Value *b)`. -/
def mul (s : Store R) (a b : Nat) : Store R × Nat :=
  (s ++ [{ data := (getN s a).data * (getN s b).data, grad := 0,
           children := [a, b], op := Op.mulOp }], s.length)

/-- `Value *pwr(Value *a, Value *b)`: data `powf(a->data, b->data)`,
with `powf` abstracted as the parameter `pw`. -/
def pwr (pw : R → R → R) (s : Store R) (a b : Nat) : Store R × Nat :=
  (s ++ [{ data := pw (getN s a).data (getN s b).data, grad := 0,
           children := [a, b], op := Op.pwrOp }], s.length)

/-- `Value *divide(Value *a, Value *b)`:
`mul(a, pwr(b, defaultValue(-1)))`, in that allocation order. -/
def divide (pw : R → R → R) (s : Store R) (a b : Nat) : Store R × Nat :=
  let p1 := defaultValue s (-1)
  let p2 := pwr pw p1.1 b p1.2
  mul p2.1 a p2.2

/-- `Value *relu(Value *a)`: data `(a->data > 0) ? a->data : 0`,
one child, reverse pointer `relu_reverse`. -/
def relu (s : Store R) (a : Nat) : Store R × Nat :=
  (s ++ [{ data := if (getN s a).data > 0 then (getN s a).data else 0,
           grad := 0, children := [a], op := Op.reluOp }], s.length)

/-- `void add_reverse(Value *c)`: both `+=` updates, then both clips,
each statement reading the heap left by the previous one. -/
def add_reverse (s : Store R) (c : Nat) : Store R :=
  let c0 := (getN s c).children.getD 0 0
  let c1 := (getN s c).children.getD 1 0
  let s1 := updGrad s c0 ((getN s c0).grad + (getN s c).grad)
  let s2 := updGrad s1 c1 ((getN s1 c1).grad + (getN s1 c).grad)
  grad_clip (grad_clip s2 c0) c1

/-- `void mul_reverse(Value *c)`. -/
def mul_reverse (s : Store R) (c : Nat) : Store R :=
  let c0 := (getN s c).children.getD 0 0
  let c1 := (getN s c).children.getD 1 0
  let s1 := updGrad s c0 ((getN s c0).grad + (getN s c).grad * (getN s c1).data)
  let s2 := updGrad s1 c1 ((getN s1 c1).grad + (getN s1 c).grad * (getN s1 c0).data)
  grad_clip (grad_clip s2 c0) c1

/-- `void pwr_reverse(Value *c)`, verbatim from the source:
`a->grad += b->data * pow(a->data, b->data - 1) * c->grad;` then
`if (b->data > 0) b->grad += log(a->data) * c->data + c->grad;`
(note: the guard tests `b->data`, and by C precedence the increment is
`(log(a->data) * c->data) + c->grad`), then both clips.  `pow` is the
parameter `pw`, `log` is the parameter `lg`. -/
def pwr_reverse (pw : R → R → R) (lg : R → R) (s : Store R) (c : Nat) : Store R :=
  let a := (getN s c).children.getD 0 0
  let b := (getN s c).children.getD 1 0
  let s1 := updGrad s a
    ((getN s a).grad + (getN s b).data * pw (getN s a).data ((getN s b).data - 1) * (getN s c).grad)
  let s2 :=
    if (getN s1 b).data > 0 then
      updGrad s1 b ((getN s1 b).grad + (lg (getN s1 a).data * (getN s1 c).data + (getN s1 c).grad))
    else s1
  grad_clip (grad_clip s2 a) b

/-- `void relu_reverse(Value *c)`:
`a->grad += (a->data > 0) ? c->grad : 0; grad_clip(a);`. -/
def relu_reverse (s : Store R) (c : Nat) : Store R :=
  let a := (getN s c).children.getD 0 0
  let s1 := updGrad s a
    ((getN s a).grad + (if (getN s a).data > 0 then (getN s c).grad else 0))
  grad_clip s1 a

/-- `if (dag[i]->reverse) dag[i]->reverse(dag[i]);` — dispatch through
the stored function pointer (`Op.leaf` is the `NULL` case). -/
def applyReverse (pw : R → R → R) (lg : R → R) (s : Store R) (i : Nat) : Store R :=
  match (getN s i).op with
  | Op.leaf => s
  | Op.addOp => add_reverse s i
  | Op.mulOp => mul_reverse s i
  | Op.pwrOp => pwr_reverse pw lg s i
  | Op.reluOp => relu_reverse s i

/-- `void build_dag(Value *val, Value **dag, int *dag_size, Value **visited,
int *len_visited)`, verbatim: the membership scan runs `i` from `0` to
`*dag_size - 1` (the emitted-node counter) while indexing the `visited`
array, i.e. it looks at `visited.take dag.length`; then `val` is pushed
onto `visited`, the children are traversed left to right, and finally
`val` is emitted onto `dag`.  The accumulator is the pair
`(dag, visited)`.  The C recursion always terminates because every
child pointer was allocated strictly before its parent; the `fuel`
argument makes that call stack explicit and is never exhausted at the
call site used by `reverse` on well-formed heaps. -/
def build_dag (s : Store R) : Nat → Nat → List Nat × List Nat → List Nat × List Nat
  | 0, _, acc => acc
  | Nat.succ fuel, val, acc =>
    if val ∈ acc.2.take acc.1.length then acc
    else
      let acc1 : List Nat × List Nat := (acc.1, acc.2 ++ [val])
      let acc2 := (getN s val).children.foldl
        (fun a c => build_dag s fuel c a) acc1
      (acc2.1 ++ [val], acc2.2)

/-- `void reverse(Value *root)`: build the dag, seed
`root->grad = 1.0` (plain assignment), then walk the dag array from its
last entry down to index 0, dispatching each node's reverse pointer. -/
def reverse (pw : R → R → R) (lg : R → R) (s : Store R) (root : Nat) : Store R :=
  let dag := (build_dag s (s.length + 1) root ([], [])).1
  let s1 := updGrad s root 1
  dag.reverse.foldl (fun t i => applyReverse pw lg t i) s1

/-- Arity of each operator, as established by every constructor. -/
def arity : Op → Nat
  | Op.leaf => 0
  | Op.addOp => 2
  | Op.mulOp => 2
  | Op.pwrOp => 2
  | Op.reluOp => 1

/-- Well-formedness of a heap: every node's children were allocated
strictly before it and match its operator's arity.  Every store built
through the constructor API satisfies this. -/
def WF (s : Store R) : Prop :=
  ∀ i < s.length,
    (getN s i).children.length = arity (getN s i).op ∧
    ∀ c ∈ (getN s i).children, c < i

instance (s : Store R) : Decidable (WF s) := by
  unfold WF; infer_instance

/-! ## Concrete scenario graphs and parameter stand-ins -/

/-- The program of `main` in `engine.c`:
`a = defaultValue(-3); b = defaultValue(2); c = sub(a, b)`
(heap ids: `a = 0`, `b = 1`, the synthetic negated leaf `= 2`, `c = 3`). -/
def mainGraph : Store R × Nat :=
  let p1 := defaultValue ([] : Store R) (-3)
  let p2 := defaultValue p1.1 2
  sub p2.1 p1.2 p2.2

/-- `x = defaultValue(v); c = add(x, x)` (ids `x = 0`, `c = 1`). -/
def sharedAdd (v : R) : Store R × Nat :=
  let p := defaultValue ([] : Store R) v
  add p.1 p.2 p.2

/-- `relu(defaultValue v)` (ids: leaf `0`, relu node `1`). -/
def reluGraph (v : R) : Store R × Nat :=
  let p := defaultValue ([] : Store R) v
  relu p.1 p.2

/-- `a = defaultValue va; b = defaultValue vb; c = add(a, b)`
(ids `0`, `1`, `2`). -/
def addGraph (va vb : R) : Store R × Nat :=
  let p1 := defaultValue ([] : Store R) va
  let p2 := defaultValue p1.1 vb
  add p2.1 p1.2 p2.2

/-- `a = defaultValue x; b = defaultValue y; c = pwr(a, b)`
(ids `0`, `1`, `2`). -/
def pwrGraph (pw : R → R → R) (x y : R) : Store R × Nat :=
  let p1 := defaultValue ([] : Store R) x
  let p2 := defaultValue p1.1 y
  pwr pw p2.1 p1.2 p2.2

/-- The doubling `Add` chain: `x = defaultValue(1)`, then
`c_k = add(c_(k-1), c_(k-1))` for `k = 1 .. n` (ids `x = 0`, `c_k = k`).
Differentiating `c_n` gives `x` the raw (unclipped) gradient `2^n`. -/
def addChain : Nat → Store R × Nat
  | 0 => defaultValue ([] : Store R) 1
  | Nat.succ n => let p := addChain n; add p.1 p.2 p.2

/-- The spec's definition of division,
`Divide(a, b) = Multiply(a, Power(b, leaf(-1)))`, written out from the
spec's words for the refinement comparison with `divide`. -/
def divide_spec (pw : R → R → R) (s : Store R) (a b : Nat) : Store R × Nat :=
  let negOne := defaultValue s (-1)
  let recip := pwr pw negOne.1 b negOne.2
  mul recip.1 a recip.2

/-- Arbitrary stand-in for `powf`/`pow` used when instantiating theorems
on graphs that contain no `Pow` node (the reverse pass never consults it
there). -/
def pwZ : ℤ → ℤ → ℤ := fun _ _ => 0

/-- Arbitrary stand-in for `log`, as `pwZ`. -/
def lgZ : ℤ → ℤ := fun _ => 0

/-- Stand-in for `powf`/`pow` in the `pwr` scenarios: returns the exact
value of C `pow` at `(2, 3)`, namely `8`, and a nonzero value at
`(2, -3)` (C `pow` returns `0.125` there). -/
def pwC : ℤ → ℤ → ℤ := fun a b =>
  if a = 2 ∧ b = 3 then 8 else if a = 2 ∧ b = -3 then 1 else 0

/-- Integer stand-in for `log` satisfying `0 < lgC 2 ≤ 1`, the
bracketing that the real `log 2 ≈ 0.693` also satisfies. -/
def lgC : ℤ → ℤ := fun _ => 1

end Micrograd

namespace Micrograd

variable {R : Type} [LinearOrderedCommRing R]

/-! ## Basic heap lemmas -/

theorem getN_of_length_le {s : Store R} {i : Nat} (h : s.length ≤ i) :
    getN s i = dNode :=
  List.getD_eq_default _ _ h

theorem getN_append {s : Store R} (l : List (Node R)) {i : Nat}
    (h : i < s.length) : getN (s ++ l) i = getN s i :=
  List.getD_append _ _ _ _ h

theorem length_updGrad (s : Store R) (i : Nat) (g : R) :
    (updGrad s i g).length = s.length :=
  List.length_set _ _ _

theorem getN_updGrad_ne (s : Store R) {i j : Nat} (g : R) (h : j ≠ i) :
    getN (updGrad s i g) j = getN s j := by
  simp only [getN, updGrad, List.getD]
  rw [List.get?_set_ne _ _ (fun hh => h hh.symm)]

theorem getN_updGrad_self {s : Store R} {i : Nat} (g : R) (h : i < s.length) :
    getN (updGrad s i g) i = { getN s i with grad := g } := by
  simp only [getN, updGrad, List.getD]
  rw [List.get?_set_eq_of_lt _ h]
  rfl

theorem getN_updGrad_grad (s : Store R) (i : Nat) (g : R) :
    (getN (updGrad s i g) i).grad = if i < s.length then g else (getN s i).grad := by
  by_cases h : i < s.length
  · rw [getN_updGrad_self g h, if_pos h]
  · rw [if_neg h]
    unfold updGrad
    rw [List.set_eq_of_length_le (by omega)]

/-! ## Shape preservation: gradient writes never touch `data`, `children`
or the function pointer, and never change the heap's extent. -/

/-- `t` has the same length and the same `data`/`children`/`op` fields as
`s` everywhere (only gradients may differ). -/
def ShapeEq (s t : Store R) : Prop :=
  t.length = s.length ∧
  ∀ i, (getN t i).data = (getN s i).data ∧
       (getN t i).children = (getN s i).children ∧
       (getN t i).op = (getN s i).op

theorem shapeEq_refl (s : Store R) : ShapeEq s s :=
  ⟨rfl, fun _ => ⟨rfl, rfl, rfl⟩⟩

theorem shapeEq_trans {s t u : Store R} (h1 : ShapeEq s t) (h2 : ShapeEq t u) :
    ShapeEq s u :=
  ⟨h2.1.trans h1.1, fun i =>
    ⟨(h2.2 i).1.trans (h1.2 i).1,
     (h2.2 i).2.1.trans (h1.2 i).2.1,
     (h2.2 i).2.2.trans (h1.2 i).2.2⟩⟩

theorem shapeEq_updGrad (s : Store R) (i : Nat) (g : R) :
    ShapeEq s (updGrad s i g) := by
  refine ⟨length_updGrad s i g, fun j => ?_⟩
  by_cases h : j = i
  · subst h
    by_cases hl : j < s.length
    · rw [getN_updGrad_self g hl]
      exact ⟨rfl, rfl, rfl⟩
    · unfold updGrad
      rw [List.set_eq_of_length_le (by omega)]
      exact ⟨rfl, rfl, rfl⟩
  · rw [getN_updGrad_ne s g h]
    exact ⟨rfl, rfl, rfl⟩

theorem shapeEq_step_updGrad {s t : Store R} (i : Nat) (g : R) (h : ShapeEq s t) :
    ShapeEq s (updGrad t i g) :=
  shapeEq_trans h (shapeEq_updGrad t i g)

theorem shapeEq_grad_clip (s : Store R) (i : Nat) :
    ShapeEq s (grad_clip s i) := by
  unfold grad_clip
  split_ifs
  · exact shapeEq_updGrad s i MIN_RANGE
  · exact shapeEq_updGrad s i MAX_RANGE
  · exact shapeEq_refl s

theorem shapeEq_step_clip {s t : Store R} (i : Nat) (h : ShapeEq s t) :
    ShapeEq s (grad_clip t i) :=
  shapeEq_trans h (shapeEq_grad_clip t i)

theorem shapeEq_add_reverse (s : Store R) (c : Nat) :
    ShapeEq s (add_reverse s c) := by
  unfold add_reverse
  exact shapeEq_step_clip _ (shapeEq_step_clip _
    (shapeEq_step_updGrad _ _ (shapeEq_step_updGrad _ _ (shapeEq_refl s))))

theorem shapeEq_mul_reverse (s : Store R) (c : Nat) :
    ShapeEq s (mul_reverse s c) := by
  unfold mul_reverse
  exact shapeEq_step_clip _ (shapeEq_step_clip _
    (shapeEq_step_updGrad _ _ (shapeEq_step_updGrad _ _ (shapeEq_refl s))))

theorem shapeEq_pwr_reverse (pw : R → R → R) (lg : R → R) (s : Store R) (c : Nat) :
    ShapeEq s (pwr_reverse pw lg s c) := by
  unfold pwr_reverse
  apply shapeEq_step_clip
  apply shapeEq_step_clip
  split_ifs
  · exact shapeEq_step_updGrad _ _ (shapeEq_step_updGrad _ _ (shapeEq_refl s))
  · exact shapeEq_step_updGrad _ _ (shapeEq_refl s)

theorem shapeEq_relu_reverse (s : Store R) (c : Nat) :
    ShapeEq s (relu_reverse s c) := by
  unfold relu_reverse
  exact shapeEq_step_clip _ (shapeEq_step_updGrad _ _ (shapeEq_refl s))

theorem shapeEq_applyReverse (pw : R → R → R) (lg : R → R) (s : Store R) (c : Nat) :
    ShapeEq s (applyReverse pw lg s c) := by
  unfold applyReverse
  rcases h : (getN s c).op with _ | _ | _ | _ | _
  all_goals simp only [h]
  · exact shapeEq_refl s
  · exact shapeEq_add_reverse s c
  · exact shapeEq_mul_reverse s c
  · exact shapeEq_pwr_reverse pw lg s c
  · exact shapeEq_relu_reverse s c

theorem shapeEq_foldl (pw : R → R → R) (lg : R → R) (s : Store R) :
    ∀ (l : List Nat) (t : Store R), ShapeEq s t →
      ShapeEq s (l.foldl (fun u i => applyReverse pw lg u i) t)
  | [], _, h => h
  | i :: l, t, h =>
    shapeEq_foldl pw lg s l (applyReverse pw lg t i)
      (shapeEq_trans h (shapeEq_applyReverse pw lg t i))

theorem shapeEq_reverse (pw : R → R → R) (lg : R → R) (s : Store R) (root : Nat) :
    ShapeEq s (reverse pw lg s root) := by
  unfold reverse
  exact shapeEq_foldl pw lg s _ _ (shapeEq_updGrad s root 1)

/-! ## `grad_clip` facts -/

theorem getN_grad_clip_ne (s : Store R) {i j : Nat} (h : j ≠ i) :
    getN (grad_clip s i) j = getN s j := by
  unfold grad_clip
  split_ifs
  · rw [getN_updGrad_ne _ _ h]
  · rw [getN_updGrad_ne _ _ h]
  · rfl

theorem getN_grad_clip_self_eq (s : Store R) {i : Nat} (h : i < s.length) :
    (getN (grad_clip s i) i).grad = clipVal (getN s i).grad := by
  unfold grad_clip clipVal
  split_ifs
  · rw [getN_updGrad_grad, if_pos h]
  · rw [getN_updGrad_grad, if_pos h]
  · rfl

theorem grad_clip_grad_self (s : Store R) (i : Nat) :
    MIN_RANGE ≤ (getN (grad_clip s i) i).grad ∧
      (getN (grad_clip s i) i).grad ≤ MAX_RANGE := by
  by_cases hl : i < s.length
  · rw [getN_grad_clip_self_eq s hl]
    unfold clipVal
    split_ifs with h1 h2
    · exact ⟨le_refl _, by norm_num [MIN_RANGE, MAX_RANGE]⟩
    · exact ⟨by norm_num [MIN_RANGE, MAX_RANGE], le_refl _⟩
    · exact ⟨le_of_not_lt h1, le_of_not_lt h2⟩
  · have hd : getN s i = dNode := getN_of_length_le (le_of_not_lt hl)
    unfold grad_clip
    rw [hd]
    have : (dNode : Node R).grad = 0 := rfl
    rw [this]
    rw [if_neg (by norm_num [MIN_RANGE]), if_neg (by norm_num [MAX_RANGE])]
    rw [hd, this]
    norm_num [MIN_RANGE, MAX_RANGE]

theorem grad_clip_grad_other {s : Store R} {j : Nat} (i : Nat)
    (h : MIN_RANGE ≤ (getN s j).grad ∧ (getN s j).grad ≤ MAX_RANGE) :
    MIN_RANGE ≤ (getN (grad_clip s i) j).grad ∧
      (getN (grad_clip s i) j).grad ≤ MAX_RANGE := by
  by_cases hji : j = i
  · subst hji
    exact grad_clip_grad_self s j
  · rw [getN_grad_clip_ne s hji]
    exact h

/-! ## The reverse pass is independent of `powf`/`log` on graphs that
contain no `Pow` node. -/

/-- No node of the heap carries the `pwr_reverse` function pointer. -/
def noPwr (s : Store R) : Prop := ∀ n ∈ s, n.op ≠ Op.pwrOp

instance (s : Store R) : Decidable (noPwr s) := by
  unfold noPwr; infer_instance

theorem getN_op_ne_pwr {s : Store R} (h : noPwr s) (i : Nat) :
    (getN s i).op ≠ Op.pwrOp := by
  by_cases hl : i < s.length
  · have hm : getN s i ∈ s := by
      unfold getN
      rw [List.getD_eq_getElem _ _ hl]
      exact List.getElem_mem hl
    exact h _ hm
  · rw [getN_of_length_le (le_of_not_lt hl)]
    intro hh
    cases hh

theorem applyReverse_indep (pw pw' : R → R → R) (lg lg' : R → R) (s : Store R)
    (i : Nat) (h : (getN s i).op ≠ Op.pwrOp) :
    applyReverse pw lg s i = applyReverse pw' lg' s i := by
  unfold applyReverse
  rcases hop : (getN s i).op with _ | _ | _ | _ | _ <;> simp only [hop] <;>
    first
      | rfl
      | exact absurd hop h

theorem foldl_indep (pw pw' : R → R → R) (lg lg' : R → R) {s : Store R}
    (hnp : noPwr s) :
    ∀ (l : List Nat) (t : Store R), ShapeEq s t →
      l.foldl (fun u i => applyReverse pw lg u i) t =
        l.foldl (fun u i => applyReverse pw' lg' u i) t
  | [], _, _ => rfl
  | i :: l, t, h => by
    have hop : (getN t i).op ≠ Op.pwrOp := by
      rw [(h.2 i).2.2]
      exact getN_op_ne_pwr hnp i
    simp only [List.foldl]
    rw [applyReverse_indep pw pw' lg lg' t i hop]
    exact foldl_indep pw pw' lg lg' hnp l _
      (shapeEq_trans h (shapeEq_applyReverse pw' lg' t i))

theorem reverse_indep (pw pw' : R → R → R) (lg lg' : R → R) {s : Store R}
    (hnp : noPwr s) (root : Nat) :
    reverse pw lg s root = reverse pw' lg' s root := by
  unfold reverse
  exact foldl_indep pw pw' lg lg' hnp _ _ (shapeEq_updGrad s root 1)

/-! ## Everything the dag traversal emits is an ancestor-bounded id -/

theorem build_dag_foldl_subset (s : Store R) (fuel : Nat)
    (IH : ∀ val acc (x : Nat), x ∈ (build_dag s fuel val acc).1 → x ∈ acc.1 ∨ x ≤ val) :
    ∀ (cs : List Nat) (bnd : Nat), (∀ c ∈ cs, c ≤ bnd) →
      ∀ (acc : List Nat × List Nat) (x : Nat),
        x ∈ (cs.foldl (fun a c => build_dag s fuel c a) acc).1 → x ∈ acc.1 ∨ x ≤ bnd
  | [], _, _, _, _, hx => Or.inl hx
  | c :: cs, bnd, hc, acc, x, hx => by
    simp only [List.foldl] at hx
    rcases build_dag_foldl_subset s fuel IH cs bnd
        (fun d hd => hc d (List.mem_cons_of_mem _ hd)) _ x hx with h1 | h1
    · rcases IH c acc x h1 with h2 | h2
      · exact Or.inl h2
      · exact Or.inr (le_trans h2 (hc c (List.mem_cons_self c cs)))
    · exact Or.inr h1

theorem build_dag_subset {s : Store R} (hWF : WF s) :
    ∀ (fuel val : Nat) (acc : List Nat × List Nat) (x : Nat),
      x ∈ (build_dag s fuel val acc).1 → x ∈ acc.1 ∨ x ≤ val
  | 0, _, _, _, hx => Or.inl hx
  | Nat.succ fuel, val, acc, x, hx => by
    unfold build_dag at hx
    split_ifs at hx with hmem
    · exact Or.inl hx
    · have hch : ∀ c ∈ (getN s val).children, c ≤ val := by
        by_cases hl : val < s.length
        · exact fun c hc => le_of_lt ((hWF val hl).2 c hc)
        · intro c hc
          rw [getN_of_length_le (le_of_not_lt hl)] at hc
          cases hc
      simp only [List.mem_append, List.mem_singleton] at hx
      rcases hx with h1 | h1
      · exact build_dag_foldl_subset s fuel
          (fun v a y => build_dag_subset hWF fuel v a y) _ val hch
          (acc.1, acc.2 ++ [val]) x h1
      · exact Or.inr (le_of_eq h1)

/-! ## The reverse walk never writes the root's gradient -/

theorem getN_grad_applyReverse_ne (pw : R → R → R) (lg : R → R)
    {s t : Store R} (hsh : ShapeEq s t) (hWF : WF s) {n r : Nat}
    (hn : n ≤ r) (hr : r < s.length) :
    (getN (applyReverse pw lg t n) r).grad = (getN t r).grad := by
  have hl : n < s.length := lt_of_le_of_lt hn hr
  obtain ⟨har, hlt⟩ := hWF n hl
  have hch : (getN t n).children = (getN s n).children := (hsh.2 n).2.1
  have hopeq : (getN t n).op = (getN s n).op := (hsh.2 n).2.2
  unfold applyReverse
  rw [hopeq]
  rcases hop : (getN s n).op with _ | _ | _ | _ | _
  · rfl
  · rw [hop] at har
    simp only [arity] at har
    obtain ⟨c0, c1, hc⟩ := List.length_eq_two.mp har
    have h0 : c0 ≠ r := by
      have := hlt c0 (by rw [hc]; exact List.mem_cons_self c0 [c1])
      omega
    have h1 : c1 ≠ r := by
      have := hlt c1 (by rw [hc]; simp)
      omega
    show (getN (add_reverse t n) r).grad = (getN t r).grad
    unfold add_reverse
    rw [hch, hc]
    simp only [List.getD_cons_zero, List.getD_cons_succ]
    rw [getN_grad_clip_ne _ (Ne.symm h1), getN_grad_clip_ne _ (Ne.symm h0),
      getN_updGrad_ne _ _ (Ne.symm h1), getN_updGrad_ne _ _ (Ne.symm h0)]
  · rw [hop] at har
    simp only [arity] at har
    obtain ⟨c0, c1, hc⟩ := List.length_eq_two.mp har
    have h0 : c0 ≠ r := by
      have := hlt c0 (by rw [hc]; exact List.mem_cons_self c0 [c1])
      omega
    have h1 : c1 ≠ r := by
      have := hlt c1 (by rw [hc]; simp)
      omega
    show (getN (mul_reverse t n) r).grad = (getN t r).grad
    unfold mul_reverse
    rw [hch, hc]
    simp only [List.getD_cons_zero, List.getD_cons_succ]
    rw [getN_grad_clip_ne _ (Ne.symm h1), getN_grad_clip_ne _ (Ne.symm h0),
      getN_updGrad_ne _ _ (Ne.symm h1), getN_updGrad_ne _ _ (Ne.symm h0)]
  · rw [hop] at har
    simp only [arity] at har
    obtain ⟨c0, c1, hc⟩ := List.length_eq_two.mp har
    have h0 : c0 ≠ r := by
      have := hlt c0 (by rw [hc]; exact List.mem_cons_self c0 [c1])
      omega
    have h1 : c1 ≠ r := by
      have := hlt c1 (by rw [hc]; simp)
      omega
    show (getN (pwr_reverse pw lg t n) r).grad = (getN t r).grad
    unfold pwr_reverse
    rw [hch, hc]
    simp only [List.getD_cons_zero, List.getD_cons_succ]
    rw [getN_grad_clip_ne _ (Ne.symm h1), getN_grad_clip_ne _ (Ne.symm h0)]
    split_ifs
    · rw [getN_updGrad_ne _ _ (Ne.symm h1), getN_updGrad_ne _ _ (Ne.symm h0)]
    · rw [getN_updGrad_ne _ _ (Ne.symm h0)]
  · rw [hop] at har
    simp only [arity] at har
    obtain ⟨c0, hc⟩ := List.length_eq_one.mp har
    have h0 : c0 ≠ r := by
      have := hlt c0 (by rw [hc]; exact List.mem_cons_self c0 [])
      omega
    show (getN (relu_reverse t n) r).grad = (getN t r).grad
    unfold relu_reverse
    rw [hch, hc]
    simp only [List.getD_cons_zero]
    rw [getN_grad_clip_ne _ (Ne.symm h0), getN_updGrad_ne _ _ (Ne.symm h0)]

theorem foldl_grad_root (pw : R → R → R) (lg : R → R) {s : Store R}
    (hWF : WF s) {r : Nat} (hr : r < s.length) :
    ∀ (l : List Nat), (∀ n ∈ l, n ≤ r) → ∀ (t : Store R), ShapeEq s t →
      (getN (l.foldl (fun u i => applyReverse pw lg u i) t) r).grad =
        (getN t r).grad
  | [], _, _, _ => rfl
  | n :: l, hl, t, hsh => by
    simp only [List.foldl]
    rw [foldl_grad_root pw lg hWF hr l
      (fun m hm => hl m (List.mem_cons_of_mem _ hm)) _
      (shapeEq_trans hsh (shapeEq_applyReverse pw lg t n))]
    exact getN_grad_applyReverse_ne pw lg hsh hWF (hl n (List.mem_cons_self n l)) hr

/-! ## Pointwise evaluation of the reverse rules on literal graphs -/

theorem applyReverse_of_leaf (pw : R → R → R) (lg : R → R) {s : Store R} {i : Nat}
    (h : (getN s i).op = Op.leaf) : applyReverse pw lg s i = s := by
  unfold applyReverse
  rw [h]

theorem getN_append_self (s : Store R) (n : Node R) :
    getN (s ++ [n]) s.length = n := by
  unfold getN
  rw [List.getD_append_right _ _ _ _ (le_refl _), Nat.sub_self]
  rfl

theorem getN_append_right (s : Store R) (l : List (Node R)) (k : Nat) :
    getN (s ++ l) (s.length + k) = getN l k := by
  unfold getN
  rw [List.getD_append_right _ _ _ _ (by omega)]
  congr 1
  omega

theorem length_grad_clip (s : Store R) (i : Nat) :
    (grad_clip s i).length = s.length :=
  (shapeEq_grad_clip s i).1

theorem relu_reverse_grad (ad ag cd cg : R) :
    (getN (relu_reverse
      [⟨ad, ag, [], Op.leaf⟩, ⟨cd, cg, [0], Op.reluOp⟩] 1) 0).grad
      = clipVal (ag + if ad > 0 then cg else 0) := by
  show (getN (grad_clip (updGrad
      [⟨ad, ag, [], Op.leaf⟩, ⟨cd, cg, [0], Op.reluOp⟩]
      0 (ag + if ad > 0 then cg else 0)) 0) 0).grad = _
  rw [getN_grad_clip_self_eq _ (by simp [length_updGrad] : (0:Nat) <
    (updGrad [⟨ad, ag, [], Op.leaf⟩, ⟨cd, cg, [0], Op.reluOp⟩]
      0 (ag + if ad > 0 then cg else 0)).length)]
  rw [getN_updGrad_grad]
  simp

theorem pwr_reverse_grad_b (pw : R → R → R) (lg : R → R) (ad ag bd bg cd cg : R) :
    (getN (pwr_reverse pw lg
      [⟨ad, ag, [], Op.leaf⟩, ⟨bd, bg, [], Op.leaf⟩, ⟨cd, cg, [0, 1], Op.pwrOp⟩] 2) 1).grad
      = clipVal (bg + if bd > 0 then lg ad * cd + cg else 0) := by
  show (getN (grad_clip (grad_clip
      (if bd > 0 then
        updGrad (updGrad
          [⟨ad, ag, [], Op.leaf⟩, ⟨bd, bg, [], Op.leaf⟩, ⟨cd, cg, [0, 1], Op.pwrOp⟩]
          0 (ag + bd * pw ad (bd - 1) * cg)) 1 (bg + (lg ad * cd + cg))
      else
        updGrad
          [⟨ad, ag, [], Op.leaf⟩, ⟨bd, bg, [], Op.leaf⟩, ⟨cd, cg, [0, 1], Op.pwrOp⟩]
          0 (ag + bd * pw ad (bd - 1) * cg)) 0) 1) 1).grad = _
  rw [getN_grad_clip_self_eq _ (by
    rw [length_grad_clip]
    split_ifs <;> simp [length_updGrad])]
  rw [getN_grad_clip_ne _ (by norm_num : (1:Nat) ≠ 0)]
  split_ifs with h
  · rw [getN_updGrad_grad]
    simp [length_updGrad]
  · rw [getN_updGrad_ne _ _ (by norm_num : (1:Nat) ≠ 0)]
    show clipVal bg = clipVal (bg + 0)
    rw [add_zero]

theorem pwr_reverse_grad_a (pw : R → R → R) (lg : R → R) (ad ag bd bg cd cg : R) :
    (getN (pwr_reverse pw lg
      [⟨ad, ag, [], Op.leaf⟩, ⟨bd, bg, [], Op.leaf⟩, ⟨cd, cg, [0, 1], Op.pwrOp⟩] 2) 0).grad
      = clipVal (ag + bd * pw ad (bd - 1) * cg) := by
  show (getN (grad_clip (grad_clip
      (if bd > 0 then
        updGrad (updGrad
          [⟨ad, ag, [], Op.leaf⟩, ⟨bd, bg, [], Op.leaf⟩, ⟨cd, cg, [0, 1], Op.pwrOp⟩]
          0 (ag + bd * pw ad (bd - 1) * cg)) 1 (bg + (lg ad * cd + cg))
      else
        updGrad
          [⟨ad, ag, [], Op.leaf⟩, ⟨bd, bg, [], Op.leaf⟩, ⟨cd, cg, [0, 1], Op.pwrOp⟩]
          0 (ag + bd * pw ad (bd - 1) * cg)) 0) 1) 0).grad = _
  rw [getN_grad_clip_ne _ (by norm_num : (0:Nat) ≠ 1)]
  rw [getN_grad_clip_self_eq _ (by split_ifs <;> simp [length_updGrad])]
  split_ifs with h
  · rw [getN_updGrad_ne _ _ (by norm_num : (0:Nat) ≠ 1)]
    rw [getN_updGrad_grad]
    simp
  · rw [getN_updGrad_grad]
    simp

/-- Every operand of a dispatched reverse rule is clipped into
`[MIN_RANGE, MAX_RANGE]` before the rule returns. -/
theorem applyReverse_clips (pw : R → R → R) (lg : R → R) (s : Store R) (c x : Nat)
    (har : (getN s c).children.length = arity (getN s c).op)
    (hx : x ∈ (getN s c).children) :
    MIN_RANGE ≤ (getN (applyReverse pw lg s c) x).grad ∧
      (getN (applyReverse pw lg s c) x).grad ≤ MAX_RANGE := by
  rcases hop : (getN s c).op with _ | _ | _ | _ | _ <;> rw [hop] at har <;>
    simp only [arity] at har
  · rw [List.length_eq_zero.mp har] at hx
    cases hx
  · obtain ⟨c0, c1, hc⟩ := List.length_eq_two.mp har
    have hd : applyReverse pw lg s c = add_reverse s c := by
      unfold applyReverse; rw [hop]
    rw [hd]
    unfold add_reverse
    rw [hc] at hx ⊢
    simp only [List.getD_cons_zero, List.getD_cons_succ]
    rcases List.mem_pair.mp hx with rfl | rfl
    · exact grad_clip_grad_other c1 (grad_clip_grad_self _ x)
    · exact grad_clip_grad_self _ x
  · obtain ⟨c0, c1, hc⟩ := List.length_eq_two.mp har
    have hd : applyReverse pw lg s c = mul_reverse s c := by
      unfold applyReverse; rw [hop]
    rw [hd]
    unfold mul_reverse
    rw [hc] at hx ⊢
    simp only [List.getD_cons_zero, List.getD_cons_succ]
    rcases List.mem_pair.mp hx with rfl | rfl
    · exact grad_clip_grad_other c1 (grad_clip_grad_self _ x)
    · exact grad_clip_grad_self _ x
  · obtain ⟨c0, c1, hc⟩ := List.length_eq_two.mp har
    have hd : applyReverse pw lg s c = pwr_reverse pw lg s c := by
      unfold applyReverse; rw [hop]
    rw [hd]
    unfold pwr_reverse
    rw [hc] at hx ⊢
    simp only [List.getD_cons_zero, List.getD_cons_succ]
    rcases List.mem_pair.mp hx with rfl | rfl
    · exact grad_clip_grad_other c1 (grad_clip_grad_self _ x)
    · exact grad_clip_grad_self _ x
  · obtain ⟨c0, hc⟩ := List.length_eq_one.mp har
    have hd : applyReverse pw lg s c = relu_reverse s c := by
      unfold applyReverse; rw [hop]
    rw [hd]
    unfold relu_reverse
    rw [hc] at hx ⊢
    simp only [List.getD_cons_zero]
    rcases List.mem_singleton.mp hx with rfl
    exact grad_clip_grad_self _ x

/-! ## The claims -/

/-- Claim C1 (code-bug evidence).  The claim states the Pow gradient
rule as `a.grad += b.value * a.value^(b.value-1) * c.grad` and
`b.grad += log(a.value) * c.value * c.grad`, the log term skipped
exactly when `a.value ≤ 0`.  The code's `pwr_reverse` instead guards the
log term on `b->data > 0` (the wrong operand) and, by C operator
precedence, adds `log(a)*c->data + c->grad` rather than multiplying by
`c->grad` — contradicting its own doc comment
`dc/db = c * log(a) * grad of c`.  Conjuncts: (1) on any one-`pwr`
graph the code's rule yields `b.grad = clip(bg + (log a · c + cg))`
gated on `b.value > 0`; (2) the `a` rule matches the claim (plus
clipping); (3) after `reverse` on `c = pwr(leaf 2, leaf 3)` (so
`powf(2,3) = 8` exactly), `b.grad = log 2 · 8 + 1`, which differs from
the claimed `log 2 · 8 · 1` (using only `0 < log 2 ≤ 1`);
(4) with `c = pwr(leaf 2, leaf (-3))` the code skips the log term even
though `a.value = 2 > 0`, producing `0` where the claimed rule gives
the nonzero `log 2 · pow(2,-3) · 1`. -/
theorem pwr_reverse_wrong_guard_and_precedence (pw : R → R → R) (lg : R → R)
    (h8 : pw 2 3 = 8) (hl0 : 0 < lg 2) (hl1 : lg 2 ≤ 1) (hm : pw 2 (-3) ≠ 0) :
    (∀ ad ag bd bg cd cg : R,
      (getN (pwr_reverse pw lg [⟨ad, ag, [], Op.leaf⟩, ⟨bd, bg, [], Op.leaf⟩,
        ⟨cd, cg, [0, 1], Op.pwrOp⟩] 2) 1).grad
          = clipVal (bg + if bd > 0 then lg ad * cd + cg else 0)) ∧
    (∀ ad ag bd bg cd cg : R,
      (getN (pwr_reverse pw lg [⟨ad, ag, [], Op.leaf⟩, ⟨bd, bg, [], Op.leaf⟩,
        ⟨cd, cg, [0, 1], Op.pwrOp⟩] 2) 0).grad
          = clipVal (ag + bd * pw ad (bd - 1) * cg)) ∧
    (getN (reverse pw lg (pwrGraph pw 2 3).1 (pwrGraph pw 2 3 : Store R × Nat).2) 1).grad
      = lg 2 * 8 + 1 ∧
    lg 2 * 8 + 1 ≠ lg 2 * 8 * 1 ∧
    (getN (reverse pw lg (pwrGraph pw 2 (-3)).1 (pwrGraph pw 2 (-3) : Store R × Nat).2) 1).grad
      = 0 ∧
    lg 2 * pw 2 (-3) * 1 ≠ 0 := by
  refine ⟨pwr_reverse_grad_b pw lg, pwr_reverse_grad_a pw lg, ?_, ?_, ?_, ?_⟩
  · have h0 : reverse pw lg (pwrGraph pw 2 3).1 (pwrGraph pw 2 3 : Store R × Nat).2 =
        applyReverse pw lg (applyReverse pw lg (applyReverse pw lg
          ([⟨2, 0, [], Op.leaf⟩, ⟨3, 0, [], Op.leaf⟩,
            ⟨pw 2 3, 1, [0, 1], Op.pwrOp⟩] : Store R) 2) 1) 0 := rfl
    have h1 : applyReverse pw lg
        ([⟨2, 0, [], Op.leaf⟩, ⟨3, 0, [], Op.leaf⟩, ⟨pw 2 3, 1, [0, 1], Op.pwrOp⟩] : Store R) 2 =
        pwr_reverse pw lg
          [⟨2, 0, [], Op.leaf⟩, ⟨3, 0, [], Op.leaf⟩, ⟨pw 2 3, 1, [0, 1], Op.pwrOp⟩] 2 := rfl
    have hop1 : (getN (pwr_reverse pw lg
        ([⟨2, 0, [], Op.leaf⟩, ⟨3, 0, [], Op.leaf⟩,
          ⟨pw 2 3, 1, [0, 1], Op.pwrOp⟩] : Store R) 2) 1).op = Op.leaf := by
      rw [((shapeEq_pwr_reverse pw lg
        ([⟨2, 0, [], Op.leaf⟩, ⟨3, 0, [], Op.leaf⟩,
          ⟨pw 2 3, 1, [0, 1], Op.pwrOp⟩] : Store R) 2).2 1).2.2]
      rfl
    have hop0 : (getN (pwr_reverse pw lg
        ([⟨2, 0, [], Op.leaf⟩, ⟨3, 0, [], Op.leaf⟩,
          ⟨pw 2 3, 1, [0, 1], Op.pwrOp⟩] : Store R) 2) 0).op = Op.leaf := by
      rw [((shapeEq_pwr_reverse pw lg
        ([⟨2, 0, [], Op.leaf⟩, ⟨3, 0, [], Op.leaf⟩,
          ⟨pw 2 3, 1, [0, 1], Op.pwrOp⟩] : Store R) 2).2 0).2.2]
      rfl
    rw [h0, h1, applyReverse_of_leaf pw lg hop1, applyReverse_of_leaf pw lg hop0,
      pwr_reverse_grad_b, if_pos (by norm_num : (3:R) > 0), h8, zero_add]
    have hgt : ¬(lg 2 * 8 + 1 < MIN_RANGE) := by
      simp only [MIN_RANGE]
      nlinarith
    have hlt : ¬(lg 2 * 8 + 1 > MAX_RANGE) := by
      simp only [MAX_RANGE]
      nlinarith
    rw [clipVal, if_neg hgt, if_neg hlt]
  · rw [mul_one]
    exact ne_of_gt (by linarith)
  · have h0 : reverse pw lg (pwrGraph pw 2 (-3)).1 (pwrGraph pw 2 (-3) : Store R × Nat).2 =
        applyReverse pw lg (applyReverse pw lg (applyReverse pw lg
          ([⟨2, 0, [], Op.leaf⟩, ⟨-3, 0, [], Op.leaf⟩,
            ⟨pw 2 (-3), 1, [0, 1], Op.pwrOp⟩] : Store R) 2) 1) 0 := rfl
    have h1 : applyReverse pw lg
        ([⟨2, 0, [], Op.leaf⟩, ⟨-3, 0, [], Op.leaf⟩,
          ⟨pw 2 (-3), 1, [0, 1], Op.pwrOp⟩] : Store R) 2 =
        pwr_reverse pw lg
          [⟨2, 0, [], Op.leaf⟩, ⟨-3, 0, [], Op.leaf⟩, ⟨pw 2 (-3), 1, [0, 1], Op.pwrOp⟩] 2 := rfl
    have hop1 : (getN (pwr_reverse pw lg
        ([⟨2, 0, [], Op.leaf⟩, ⟨-3, 0, [], Op.leaf⟩,
          ⟨pw 2 (-3), 1, [0, 1], Op.pwrOp⟩] : Store R) 2) 1).op = Op.leaf := by
      rw [((shapeEq_pwr_reverse pw lg
        ([⟨2, 0, [], Op.leaf⟩, ⟨-3, 0, [], Op.leaf⟩,
          ⟨pw 2 (-3), 1, [0, 1], Op.pwrOp⟩] : Store R) 2).2 1).2.2]
      rfl
    have hop0 : (getN (pwr_reverse pw lg
        ([⟨2, 0, [], Op.leaf⟩, ⟨-3, 0, [], Op.leaf⟩,
          ⟨pw 2 (-3), 1, [0, 1], Op.pwrOp⟩] : Store R) 2) 0).op = Op.leaf := by
      rw [((shapeEq_pwr_reverse pw lg
        ([⟨2, 0, [], Op.leaf⟩, ⟨-3, 0, [], Op.leaf⟩,
          ⟨pw 2 (-3), 1, [0, 1], Op.pwrOp⟩] : Store R) 2).2 0).2.2]
      rfl
    rw [h0, h1, applyReverse_of_leaf pw lg hop1, applyReverse_of_leaf pw lg hop0,
      pwr_reverse_grad_b, if_neg (by norm_num : ¬((-3:R) > 0))]
    norm_num [clipVal, MIN_RANGE, MAX_RANGE]
  · rw [mul_one]
    exact mul_ne_zero (ne_of_gt hl0) hm

theorem pwr_reverse_wrong_guard_and_precedence_witness :
    pwC 2 3 = 8 ∧ 0 < lgC 2 ∧ lgC 2 ≤ 1 ∧ pwC 2 (-3) ≠ 0 ∧
    ((∀ ad ag bd bg cd cg : ℤ,
      (getN (pwr_reverse pwC lgC [⟨ad, ag, [], Op.leaf⟩, ⟨bd, bg, [], Op.leaf⟩,
        ⟨cd, cg, [0, 1], Op.pwrOp⟩] 2) 1).grad
          = clipVal (bg + if bd > 0 then lgC ad * cd + cg else 0)) ∧
    (∀ ad ag bd bg cd cg : ℤ,
      (getN (pwr_reverse pwC lgC [⟨ad, ag, [], Op.leaf⟩, ⟨bd, bg, [], Op.leaf⟩,
        ⟨cd, cg, [0, 1], Op.pwrOp⟩] 2) 0).grad
          = clipVal (ag + bd * pwC ad (bd - 1) * cg)) ∧
    (getN (reverse pwC lgC (pwrGraph pwC 2 3).1 (pwrGraph pwC 2 3 : Store ℤ × Nat).2) 1).grad
      = lgC 2 * 8 + 1 ∧
    lgC 2 * 8 + 1 ≠ lgC 2 * 8 * 1 ∧
    (getN (reverse pwC lgC (pwrGraph pwC 2 (-3)).1
      (pwrGraph pwC 2 (-3) : Store ℤ × Nat).2) 1).grad = 0 ∧
    lgC 2 * pwC 2 (-3) * 1 ≠ 0) :=
  ⟨by decide, by decide, by decide, by decide,
   pwr_reverse_wrong_guard_and_precedence pwC lgC (by decide) (by decide) (by decide) (by decide)⟩

set_option maxRecDepth 4000 in
/-- Claim C2 (code-bug evidence).  The claim says `build_dag` emits every
reachable node exactly once.  The code's visited-membership scan is
bounded by `*dag_size` (the count of already-emitted nodes) while
indexing the `visited` array, so a shared operand can escape the check:
for `x = defaultValue(5); c = add(x, x)` the traversal emits
`dag = [x, x, c]` — `x` (id 0) appears twice.  The graph is a perfectly
well-formed product of the constructor API (`WF` holds). -/
theorem build_dag_emits_shared_node_twice :
    (build_dag (sharedAdd (5:ℤ)).1 ((sharedAdd (5:ℤ)).1.length + 1) (sharedAdd (5:ℤ)).2
      ([], [])).1 = [0, 0, 1] ∧
    ((build_dag (sharedAdd (5:ℤ)).1 ((sharedAdd (5:ℤ)).1.length + 1) (sharedAdd (5:ℤ)).2
      ([], [])).1.count 0 = 2) ∧
    WF (sharedAdd (5:ℤ)).1 := by
  decide

/-- Claim C3 (confirmed).  For `a = leaf(-3), b = leaf(2), c = sub(a, b)`
followed by `reverse(c)` (the exact program of `main`): `c.data = -5`,
`a.grad = 1`, and `b.grad = 0`, because `sub` builds
`add(a, defaultValue(-b.data))`: `c`'s children are `a` (id 0) and the
fresh negated leaf (id 2, holding `-2`), not `b` (id 1), so the reverse
pass routes the gradient into the synthetic leaf and never into `b`. -/
theorem main_subtract_scenario (pw : R → R → R) (lg : R → R) :
    (getN (reverse pw lg (mainGraph : Store R × Nat).1 (mainGraph : Store R × Nat).2) 3).data
      = -5 ∧
    (getN (reverse pw lg (mainGraph : Store R × Nat).1 (mainGraph : Store R × Nat).2) 0).grad
      = 1 ∧
    (getN (reverse pw lg (mainGraph : Store R × Nat).1 (mainGraph : Store R × Nat).2) 1).grad
      = 0 ∧
    (getN (mainGraph : Store R × Nat).1 3).children = [0, 2] ∧
    getN (mainGraph : Store R × Nat).1 2 = ⟨-2, 0, [], Op.leaf⟩ ∧
    (mainGraph : Store R × Nat).2 = 3 := by
  have h0 : reverse pw lg (mainGraph : Store R × Nat).1 (mainGraph : Store R × Nat).2 =
      applyReverse pw lg (applyReverse pw lg (applyReverse pw lg
        ([⟨-3, 0, [], Op.leaf⟩, ⟨2, 0, [], Op.leaf⟩, ⟨-2, 0, [], Op.leaf⟩,
          ⟨-3 + -2, 1, [0, 2], Op.addOp⟩] : Store R) 3) 2) 0 := rfl
  have h2 : applyReverse pw lg
      ([⟨-3, 0, [], Op.leaf⟩, ⟨2, 0, [], Op.leaf⟩, ⟨-2, 0, [], Op.leaf⟩,
        ⟨-3 + -2, 1, [0, 2], Op.addOp⟩] : Store R) 3 =
      [⟨-3, 1, [], Op.leaf⟩, ⟨2, 0, [], Op.leaf⟩, ⟨-2, 1, [], Op.leaf⟩,
        ⟨-3 + -2, 1, [0, 2], Op.addOp⟩] := by
    show add_reverse _ 3 = _
    simp only [add_reverse, updGrad, getN, grad_clip, MIN_RANGE, MAX_RANGE,
      List.getD_cons_zero, List.getD_cons_succ,
      List.set_cons_zero, List.set_cons_succ, List.getD]
    norm_num
  have h3 : applyReverse pw lg
      ([⟨-3, 1, [], Op.leaf⟩, ⟨2, 0, [], Op.leaf⟩, ⟨-2, 1, [], Op.leaf⟩,
        ⟨-3 + -2, 1, [0, 2], Op.addOp⟩] : Store R) 2 =
      [⟨-3, 1, [], Op.leaf⟩, ⟨2, 0, [], Op.leaf⟩, ⟨-2, 1, [], Op.leaf⟩,
        ⟨-3 + -2, 1, [0, 2], Op.addOp⟩] := rfl
  have h4 : applyReverse pw lg
      ([⟨-3, 1, [], Op.leaf⟩, ⟨2, 0, [], Op.leaf⟩, ⟨-2, 1, [], Op.leaf⟩,
        ⟨-3 + -2, 1, [0, 2], Op.addOp⟩] : Store R) 0 =
      [⟨-3, 1, [], Op.leaf⟩, ⟨2, 0, [], Op.leaf⟩, ⟨-2, 1, [], Op.leaf⟩,
        ⟨-3 + -2, 1, [0, 2], Op.addOp⟩] := rfl
  rw [h0, h2, h3, h4]
  refine ⟨?_, rfl, rfl, rfl, rfl, rfl⟩
  show (-3 : R) + -2 = -5
  norm_num

/-- Claim C4 (confirmed).  Gradients accumulate across shared operands:
for any leaf value `v`, with `x = defaultValue(v); c = add(x, x)`,
after `reverse(c)` the gradient of `x` is exactly `2` (the two
contributions of `add_reverse` through the shared child sum). -/
theorem shared_add_gradient_accumulates (pw : R → R → R) (lg : R → R) (v : R) :
    (getN (reverse pw lg (sharedAdd v).1 (sharedAdd v).2) 0).grad = 2 := by
  have h0 : reverse pw lg (sharedAdd v).1 (sharedAdd v).2 =
      applyReverse pw lg (applyReverse pw lg (applyReverse pw lg
        ([⟨v, 0, [], Op.leaf⟩, ⟨v + v, 1, [0, 0], Op.addOp⟩] : Store R) 1) 0) 0 := rfl
  have h2 : applyReverse pw lg ([⟨v, 0, [], Op.leaf⟩, ⟨v + v, 1, [0, 0], Op.addOp⟩] : Store R) 1 =
      [⟨v, 2, [], Op.leaf⟩, ⟨v + v, 1, [0, 0], Op.addOp⟩] := by
    show add_reverse _ 1 = _
    simp only [add_reverse, updGrad, getN, grad_clip, MIN_RANGE, MAX_RANGE,
      List.getD_cons_zero, List.getD_cons_succ,
      List.set_cons_zero, List.set_cons_succ, List.getD]
    norm_num
  have h3 : applyReverse pw lg ([⟨v, 2, [], Op.leaf⟩, ⟨v + v, 1, [0, 0], Op.addOp⟩] : Store R) 0 =
      [⟨v, 2, [], Op.leaf⟩, ⟨v + v, 1, [0, 0], Op.addOp⟩] := rfl
  rw [h0, h2, h3, h3]
  rfl

/-- Claim C5 (confirmed).  Relu semantics: the forward value is
`max(0, a.value)` (in particular `relu(leaf(-1)).value = 0` and
`relu(leaf 2).value = 2`), and in the reverse pass `relu_reverse` adds
`c.grad` into the operand exactly when the operand's forward value is
strictly positive, contributing `0` otherwise — including at exactly
`0` (then clips); end to end, `reverse(relu(leaf v))` leaves the leaf
with gradient `1` when `v > 0` and `0` otherwise. -/
theorem relu_forward_backward (pw : R → R → R) (lg : R → R) :
    (∀ v : R, (getN (reluGraph v).1 (reluGraph v : Store R × Nat).2).data = max 0 v) ∧
    (getN (reluGraph (-1 : R)).1 (reluGraph (-1 : R)).2).data = 0 ∧
    (getN (reluGraph (2 : R)).1 (reluGraph (2 : R)).2).data = 2 ∧
    (∀ ad ag cd cg : R,
      (getN (relu_reverse [⟨ad, ag, [], Op.leaf⟩, ⟨cd, cg, [0], Op.reluOp⟩] 1) 0).grad
        = clipVal (ag + if ad > 0 then cg else 0)) ∧
    (∀ v : R,
      (getN (reverse pw lg (reluGraph v).1 (reluGraph v : Store R × Nat).2) 0).grad
        = if v > 0 then 1 else 0) := by
  refine ⟨?_, ?_, ?_, relu_reverse_grad, ?_⟩
  · intro v
    show (if v > 0 then v else 0) = max 0 v
    rcases lt_or_le 0 v with h | h
    · rw [if_pos h, max_eq_right h.le]
    · rw [if_neg (not_lt.mpr h), max_eq_left h]
  · show (if (-1 : R) > 0 then (-1 : R) else 0) = 0
    rw [if_neg (by norm_num)]
  · show (if (2 : R) > 0 then (2 : R) else 0) = 2
    rw [if_pos (by norm_num)]
  · intro v
    have h0 : reverse pw lg (reluGraph v).1 (reluGraph v : Store R × Nat).2 =
        applyReverse pw lg (applyReverse pw lg
          ([⟨v, 0, [], Op.leaf⟩,
            ⟨if v > 0 then v else 0, 1, [0], Op.reluOp⟩] : Store R) 1) 0 := rfl
    have h1 : applyReverse pw lg
        ([⟨v, 0, [], Op.leaf⟩, ⟨if v > 0 then v else 0, 1, [0], Op.reluOp⟩] : Store R) 1 =
        relu_reverse [⟨v, 0, [], Op.leaf⟩, ⟨if v > 0 then v else 0, 1, [0], Op.reluOp⟩] 1 := rfl
    have hop : (getN (relu_reverse
        ([⟨v, 0, [], Op.leaf⟩, ⟨if v > 0 then v else 0, 1, [0], Op.reluOp⟩] : Store R) 1) 0).op
        = Op.leaf := by
      rw [((shapeEq_relu_reverse
        ([⟨v, 0, [], Op.leaf⟩, ⟨if v > 0 then v else 0, 1, [0], Op.reluOp⟩] : Store R) 1).2 0).2.2]
      rfl
    have h2 := applyReverse_of_leaf pw lg hop
    rw [h0, h1, h2, relu_reverse_grad]
    rcases lt_or_le 0 v with h | h
    · rw [if_pos h]
      norm_num [clipVal, MIN_RANGE, MAX_RANGE]
    · rw [if_neg (not_lt.mpr h)]
      norm_num [clipVal, MIN_RANGE, MAX_RANGE]

set_option maxRecDepth 100000 in
/-- Claim C6 (confirmed).  Per-update clipping: whenever the reverse
pass dispatches a gradient rule at a node, every operand of that node
has its gradient clamped into `[MIN_RANGE, MAX_RANGE] = [-10, 10]`
before the rule returns — clipping happens inside every rule
application, not once at the end of the pass.  Consequently the
20-deep doubling `Add` chain, whose raw (unclipped) gradient at the
driven leaf would be `2^20 = 1048576 ≥ 10^6`, leaves the leaf with
gradient exactly `MAX_RANGE = 10`; the traversal also stays far below
`MAX_DAG_SIZE`, so the C stack arrays do not overflow. -/
theorem per_update_gradient_clipping :
    (∀ (pw : R → R → R) (lg : R → R) (s : Store R) (c x : Nat),
      (getN s c).children.length = arity (getN s c).op →
      x ∈ (getN s c).children →
      MIN_RANGE ≤ (getN (applyReverse pw lg s c) x).grad ∧
        (getN (applyReverse pw lg s c) x).grad ≤ MAX_RANGE) ∧
    (∀ (pw : ℤ → ℤ → ℤ) (lg : ℤ → ℤ),
      (getN (reverse pw lg (addChain 20 : Store ℤ × Nat).1 (addChain 20 : Store ℤ × Nat).2)
        0).grad = MAX_RANGE) ∧
    ((2:ℤ) ^ 20 = 1048576 ∧ (1000000 : ℤ) ≤ 2 ^ 20) ∧
    (build_dag (addChain 20 : Store ℤ × Nat).1 ((addChain 20 : Store ℤ × Nat).1.length + 1)
      (addChain 20 : Store ℤ × Nat).2 ([], [])).1.length ≤ MAX_DAG_SIZE := by
  refine ⟨applyReverse_clips, ?_, by norm_num, by decide⟩
  intro pw lg
  rw [reverse_indep pw pwZ lg lgZ (by decide) _]
  decide

theorem per_update_gradient_clipping_witness :
    ((getN (sharedAdd (5:ℤ)).1 1).children.length = arity (getN (sharedAdd (5:ℤ)).1 1).op ∧
      0 ∈ (getN (sharedAdd (5:ℤ)).1 1).children) ∧
    (MIN_RANGE ≤ (getN (applyReverse pwZ lgZ (sharedAdd (5:ℤ)).1 1) 0).grad ∧
      (getN (applyReverse pwZ lgZ (sharedAdd (5:ℤ)).1 1) 0).grad ≤ MAX_RANGE) :=
  ⟨⟨by decide, by decide⟩,
   (per_update_gradient_clipping (R := ℤ)).1 pwZ lgZ (sharedAdd (5:ℤ)).1 1 0
     (by decide) (by decide)⟩

/-- Claim C7 (confirmed).  `divide(a, b)` is exactly the composition
`mul(a, pwr(b, defaultValue(-1)))`: it equals the spec-side
`divide_spec` definition on the nose, and the heap it produces is the
input heap extended with precisely the fresh `-1` leaf, the reciprocal
`pwr` node (children `[b, leaf]`, i.e. gradient flows to `b` only
through it), and the returned `mul` node with forward value
`a.data * pow(b.data, -1)`, children `[a, reciprocal]`, and the `mul`
reverse function pointer — so forward value, operand structure and
reverse-pass behavior all coincide with the explicit composition. -/
theorem divide_refines_mul_pwr_composition (pw : R → R → R) (s : Store R) (a b : Nat)
    (ha : a < s.length) (hb : b < s.length) :
    divide pw s a b = divide_spec pw s a b ∧
    divide pw s a b =
      (s ++ [⟨-1, 0, [], Op.leaf⟩,
             ⟨pw (getN s b).data (-1), 0, [b, s.length], Op.pwrOp⟩,
             ⟨(getN s a).data * pw (getN s b).data (-1), 0, [a, s.length + 1], Op.mulOp⟩],
       s.length + 2) := by
  refine ⟨rfl, ?_⟩
  have h1 : getN (s ++ [(⟨-1, 0, [], Op.leaf⟩ : Node R)]) b = getN s b :=
    getN_append _ hb
  have h2 : getN (s ++ [(⟨-1, 0, [], Op.leaf⟩ : Node R)]) s.length =
      (⟨-1, 0, [], Op.leaf⟩ : Node R) := getN_append_self s _
  have h3 : getN (s ++ [(⟨-1, 0, [], Op.leaf⟩ : Node R),
      (⟨pw (getN s b).data (-1), 0, [b, s.length], Op.pwrOp⟩ : Node R)]) a = getN s a :=
    getN_append _ ha
  have h4 : getN (s ++ [(⟨-1, 0, [], Op.leaf⟩ : Node R),
      (⟨pw (getN s b).data (-1), 0, [b, s.length], Op.pwrOp⟩ : Node R)]) (s.length + 1) =
      (⟨pw (getN s b).data (-1), 0, [b, s.length], Op.pwrOp⟩ : Node R) :=
    getN_append_right s _ 1
  unfold divide defaultValue pwr mul
  simp only [List.append_assoc, List.cons_append, List.nil_append, List.singleton_append,
    List.length_append, List.length_cons, List.length_nil, Nat.zero_add, Nat.add_zero,
    h1, h2, h3, h4]

theorem divide_refines_mul_pwr_composition_witness :
    (0 < ((addGraph (3:ℤ) 4).1).length ∧ 1 < ((addGraph (3:ℤ) 4).1).length) ∧
    (divide pwZ (addGraph (3:ℤ) 4).1 0 1 = divide_spec pwZ (addGraph (3:ℤ) 4).1 0 1 ∧
     divide pwZ (addGraph (3:ℤ) 4).1 0 1 =
      ((addGraph (3:ℤ) 4).1 ++ [⟨-1, 0, [], Op.leaf⟩,
        ⟨pwZ (getN (addGraph (3:ℤ) 4).1 1).data (-1), 0, [1, ((addGraph (3:ℤ) 4).1).length],
          Op.pwrOp⟩,
        ⟨(getN (addGraph (3:ℤ) 4).1 0).data * pwZ (getN (addGraph (3:ℤ) 4).1 1).data (-1), 0,
          [0, ((addGraph (3:ℤ) 4).1).length + 1], Op.mulOp⟩],
       ((addGraph (3:ℤ) 4).1).length + 2)) :=
  ⟨⟨by decide, by decide⟩,
   divide_refines_mul_pwr_composition pwZ (addGraph (3:ℤ) 4).1 0 1 (by decide) (by decide)⟩

/-- Claim C8 (confirmed).  Gradients are not reset between reverse
passes: for `c = add(a, b)` on leaves holding any `va, vb`, one
`reverse(c)` leaves `a.grad = b.grad = 1`, and calling `reverse(c)`
again on the same heap accumulates on top, giving `a.grad = b.grad = 2`
(double the single-pass values); only the root's gradient is re-seeded
to `1` by assignment. -/
theorem second_reverse_accumulates (pw : R → R → R) (lg : R → R) (va vb : R) :
    (getN (reverse pw lg (addGraph va vb).1 (addGraph va vb).2) 0).grad = 1 ∧
    (getN (reverse pw lg (addGraph va vb).1 (addGraph va vb).2) 1).grad = 1 ∧
    (getN (reverse pw lg (reverse pw lg (addGraph va vb).1 (addGraph va vb).2)
      (addGraph va vb).2) 0).grad = 2 ∧
    (getN (reverse pw lg (reverse pw lg (addGraph va vb).1 (addGraph va vb).2)
      (addGraph va vb).2) 1).grad = 2 := by
  have hstep1 : applyReverse pw lg
      ([⟨va, 0, [], Op.leaf⟩, ⟨vb, 0, [], Op.leaf⟩, ⟨va + vb, 1, [0, 1], Op.addOp⟩] : Store R) 2 =
      [⟨va, 1, [], Op.leaf⟩, ⟨vb, 1, [], Op.leaf⟩, ⟨va + vb, 1, [0, 1], Op.addOp⟩] := by
    show add_reverse _ 2 = _
    simp only [add_reverse, updGrad, getN, grad_clip, MIN_RANGE, MAX_RANGE,
      List.getD_cons_zero, List.getD_cons_succ,
      List.set_cons_zero, List.set_cons_succ, List.getD]
    norm_num
  have hr1 : reverse pw lg (addGraph va vb).1 (addGraph va vb).2 =
      [⟨va, 1, [], Op.leaf⟩, ⟨vb, 1, [], Op.leaf⟩, ⟨va + vb, 1, [0, 1], Op.addOp⟩] := by
    have h0 : reverse pw lg (addGraph va vb).1 (addGraph va vb).2 =
        applyReverse pw lg (applyReverse pw lg (applyReverse pw lg
          ([⟨va, 0, [], Op.leaf⟩, ⟨vb, 0, [], Op.leaf⟩,
            ⟨va + vb, 1, [0, 1], Op.addOp⟩] : Store R) 2) 1) 0 := rfl
    rw [h0, hstep1]
    rfl
  have hstep2 : applyReverse pw lg
      ([⟨va, 1, [], Op.leaf⟩, ⟨vb, 1, [], Op.leaf⟩, ⟨va + vb, 1, [0, 1], Op.addOp⟩] : Store R) 2 =
      [⟨va, 2, [], Op.leaf⟩, ⟨vb, 2, [], Op.leaf⟩, ⟨va + vb, 1, [0, 1], Op.addOp⟩] := by
    show add_reverse _ 2 = _
    simp only [add_reverse, updGrad, getN, grad_clip, MIN_RANGE, MAX_RANGE,
      List.getD_cons_zero, List.getD_cons_succ,
      List.set_cons_zero, List.set_cons_succ, List.getD]
    norm_num
  have hr2 : reverse pw lg
      ([⟨va, 1, [], Op.leaf⟩, ⟨vb, 1, [], Op.leaf⟩, ⟨va + vb, 1, [0, 1], Op.addOp⟩] : Store R)
      (addGraph va vb).2 =
      [⟨va, 2, [], Op.leaf⟩, ⟨vb, 2, [], Op.leaf⟩, ⟨va + vb, 1, [0, 1], Op.addOp⟩] := by
    have h0 : reverse pw lg
        ([⟨va, 1, [], Op.leaf⟩, ⟨vb, 1, [], Op.leaf⟩, ⟨va + vb, 1, [0, 1], Op.addOp⟩] : Store R)
        (addGraph va vb).2 =
        applyReverse pw lg (applyReverse pw lg (applyReverse pw lg
          ([⟨va, 1, [], Op.leaf⟩, ⟨vb, 1, [], Op.leaf⟩,
            ⟨va + vb, 1, [0, 1], Op.addOp⟩] : Store R) 2) 1) 0 := rfl
    rw [h0, hstep2]
    rfl
  rw [hr1, hr2]
  exact ⟨rfl, rfl, rfl, rfl⟩

/-- Claim C9 (confirmed).  The forward graph is immutable once built:
every operator call (`add`, `sub`, `mul`, `pwr`, `divide`, `relu`) only
appends fresh nodes, leaving every previously created node — all of its
fields, in particular `children`/`n_children` and the fields of its
operand nodes — bit-for-bit unchanged; and `reverse` changes at most
`grad` fields, never `data`, `children`/`n_children`, or the stored
reverse function pointer, of any node. -/
theorem graph_immutable_nodes_frame (pw : R → R → R) (lg : R → R) (s : Store R)
    (a b root i : Nat) (h : i < s.length) :
    getN ((add s a b).1) i = getN s i ∧
    getN ((sub s a b).1) i = getN s i ∧
    getN ((mul s a b).1) i = getN s i ∧
    getN ((pwr pw s a b).1) i = getN s i ∧
    getN ((divide pw s a b).1) i = getN s i ∧
    getN ((relu s a).1) i = getN s i ∧
    (getN (reverse pw lg s root) i).data = (getN s i).data ∧
    (getN (reverse pw lg s root) i).children = (getN s i).children ∧
    (getN (reverse pw lg s root) i).op = (getN s i).op := by
  refine ⟨getN_append _ h, ?_, getN_append _ h, getN_append _ h, ?_, getN_append _ h,
    ((shapeEq_reverse pw lg s root).2 i).1,
    ((shapeEq_reverse pw lg s root).2 i).2.1,
    ((shapeEq_reverse pw lg s root).2 i).2.2⟩
  · show getN ((s ++ [_]) ++ [_]) i = getN s i
    rw [getN_append _ (by simp; omega), getN_append _ h]
  · show getN (((s ++ [_]) ++ [_]) ++ [_]) i = getN s i
    rw [getN_append _ (by simp; omega), getN_append _ (by simp; omega), getN_append _ h]

theorem graph_immutable_nodes_frame_witness :
    0 < ((addGraph (3:ℤ) 4).1).length ∧
    (getN ((add (addGraph (3:ℤ) 4).1 0 1).1) 0 = getN (addGraph (3:ℤ) 4).1 0 ∧
     getN ((sub (addGraph (3:ℤ) 4).1 0 1).1) 0 = getN (addGraph (3:ℤ) 4).1 0 ∧
     getN ((mul (addGraph (3:ℤ) 4).1 0 1).1) 0 = getN (addGraph (3:ℤ) 4).1 0 ∧
     getN ((pwr pwZ (addGraph (3:ℤ) 4).1 0 1).1) 0 = getN (addGraph (3:ℤ) 4).1 0 ∧
     getN ((divide pwZ (addGraph (3:ℤ) 4).1 0 1).1) 0 = getN (addGraph (3:ℤ) 4).1 0 ∧
     getN ((relu (addGraph (3:ℤ) 4).1 0).1) 0 = getN (addGraph (3:ℤ) 4).1 0 ∧
     (getN (reverse pwZ lgZ (addGraph (3:ℤ) 4).1 2) 0).data
       = (getN (addGraph (3:ℤ) 4).1 0).data ∧
     (getN (reverse pwZ lgZ (addGraph (3:ℤ) 4).1 2) 0).children
       = (getN (addGraph (3:ℤ) 4).1 0).children ∧
     (getN (reverse pwZ lgZ (addGraph (3:ℤ) 4).1 2) 0).op
       = (getN (addGraph (3:ℤ) 4).1 0).op) :=
  ⟨by decide, graph_immutable_nodes_frame pwZ lgZ (addGraph (3:ℤ) 4).1 0 1 2 0 (by decide)⟩

/-- Claim C10 (confirmed).  After any `reverse(root)` on a well-formed
heap (children allocated strictly before their parents, arities
matching — true of every heap the constructor API builds), the root's
gradient is exactly `1`: the seed `root->grad = 1.0` is a plain
assignment that overwrites whatever an earlier pass left there, and no
gradient rule or clip ever touches the root afterwards, because every
node the dag traversal emits is `≤ root` and rules only write the
gradients of a node's children, which have strictly smaller ids. -/
theorem reverse_seeds_root_gradient (pw : R → R → R) (lg : R → R) {s : Store R}
    (hWF : WF s) {root : Nat} (hroot : root < s.length) :
    (getN (reverse pw lg s root) root).grad = 1 := by
  unfold reverse
  have hbound : ∀ n ∈ ((build_dag s (s.length + 1) root ([], [])).1).reverse, n ≤ root := by
    intro n hn
    rw [List.mem_reverse] at hn
    rcases build_dag_subset hWF _ root ([], []) n hn with h1 | h1
    · cases h1
    · exact h1
  rw [foldl_grad_root pw lg hWF hroot _ hbound _ (shapeEq_updGrad s root 1)]
  rw [getN_updGrad_grad, if_pos hroot]

theorem reverse_seeds_root_gradient_witness :
    (WF (mainGraph : Store ℤ × Nat).1 ∧ 3 < ((mainGraph : Store ℤ × Nat).1).length) ∧
    (getN (reverse pwZ lgZ (mainGraph : Store ℤ × Nat).1 3) 3).grad = 1 :=
  ⟨⟨by decide, by decide⟩,
   reverse_seeds_root_gradient pwZ lgZ (by decide) (by decide)⟩

end Micrograd
